import Mathlib

/-!
Verification of the taomap-subnet validator and miner against their
natural-language specification.

The development shallowly embeds the relevant code of
`src/neurons/validator.py` and `src/neurons/miner.py`:

* the vote resolver `Validator.get_vote_result`,
* the worker clustering engine `Validator.cluster_miners`,
* one iteration of the benchmark thread `Validator.benchmark`,
* the sample aggregation of `Validator.set_weights`, and
* `Miner.blacklist`.

External collaborators (the chain, wandb, sklearn's k-means, Python's
string hash) are modelled at their interface: commitment and artifact
reads are function parameters, the k-means label assignment is an
arbitrary function, and hash functions are arbitrary parameters —
the embedded code never computes a hash itself, exactly like the source.
-/

/-! ### Constants (src/taomap/constants.py) -/

def BLOCKS_PER_TERM : Nat := 720
def BLOCKS_SHARE_SEED : Nat := 20
def BLOCKS_START_BENCHMARK : Nat := 40
def BLOCKS_PER_GROUP : Nat := 10
def BLOCKS_SEEDHASH_START : Nat := 550
def BLOCKS_SEEDHASH_END : Nat := 600
def VALIDATOR_MIN_STAKE : Int := 5000

/-! ### Vote resolver (`Validator.get_vote_result`, validator.py lines 223-276)

A commitment read back from the chain.  `get_commit_data(uid)` is modelled as
a function `Nat → Option CommitData`; the fields are the keys the resolver
reads at lines 237-245. -/

structure CommitData where
  term : Int
  block : Nat
  seedhash : Int
  seed : Int
  grouphash : Int
  version : Nat
deriving DecidableEq

/-- The wandb `state-{uid}` artifact, as produced by `upload_state`
(validator.py lines 309-319): it stores the uploader's term, seed, the hash
of the seed as computed by the *uploader*, the groups and the group hash. -/
structure StateData where
  term : Int
  seed : Int
  hash : Int
  groups : List (List Nat)
  grouphash : Int
deriving DecidableEq

/-- The artifact built by `upload_state` (validator.py lines 313-319) for an
uploader using seed hash function `h` and group hash function `hg`. -/
def upload_state_data (h : Int → Int) (hg : List (List Nat) → Int)
    (term : Int) (seed : Int) (groups : List (List Nat)) : StateData :=
  { term := term, seed := seed, hash := h seed, groups := groups,
    grouphash := hg groups }

/-- A commitment after the reveal/validation loop of `get_vote_result`
(validator.py lines 249-260): the original fields plus the `valid` flag and
the groups taken from the artifact.  An invalid commit keeps `groups = []`
(the code never reads `groups` of an invalid commit). -/
structure ResolvedCommit where
  uid : Nat
  term : Int
  block : Nat
  seedhash : Int
  seed : Int
  grouphash : Int
  version : Nat
  valid : Bool
  groups : List (List Nat)
deriving DecidableEq

def defaultResolvedCommit : ResolvedCommit :=
  { uid := 0, term := 0, block := 0, seedhash := 0, seed := 0, grouphash := 0,
    version := 0, valid := false, groups := [] }

/-- The commit-window test of validator.py line 234: a commit is skipped when
`commit_data['term'] != self.term or
 commit_data['block'] % BLOCKS_PER_TERM > BLOCKS_SHARE_SEED`. -/
def windowOk (term : Int) (cd : CommitData) : Bool :=
  cd.term == term && cd.block % BLOCKS_PER_TERM ≤ BLOCKS_SHARE_SEED

/-- Lines 225-245: enumerate validator uids (stake at least the threshold),
read each commitment, and keep the in-window commitments of the current
term, in metagraph discovery order. -/
def collectCommits (term : Int) (stake : Nat → Int) (uids : List Nat)
    (getCommitData : Nat → Option CommitData) : List (Nat × CommitData) :=
  (uids.filter (fun uid => VALIDATOR_MIN_STAKE ≤ stake uid)).filterMap
    (fun uid =>
      match getCommitData uid with
      | none => none
      | some cd => if windowOk term cd then some (uid, cd) else none)

/-- Lines 249-260: fetch the shared `state-{uid}` artifact and set the
`valid` flag.  The code marks a commit valid exactly when the fetch succeeds
and the *committed* seedhash equals the `hash` field *stored in the
artifact*; it does not recompute any hash. -/
def resolveCommit (fetchState : Nat → Nat → Option StateData)
    (c : Nat × CommitData) : ResolvedCommit :=
  let base : ResolvedCommit :=
    { uid := c.1, term := c.2.term, block := c.2.block,
      seedhash := c.2.seedhash, seed := c.2.seed, grouphash := c.2.grouphash,
      version := c.2.version, valid := false, groups := [] }
  match fetchState c.1 c.2.version with
  | none => base
  | some d =>
    if c.2.seedhash ≠ d.hash then base
    else { base with valid := true, groups := d.groups }

/-- Line 264: `valid_commits = [commit for commit in commits if commit['valid']]`. -/
def validCommitsOf (term : Int) (stake : Nat → Int) (uids : List Nat)
    (getCommitData : Nat → Option CommitData)
    (fetchState : Nat → Nat → Option StateData) : List ResolvedCommit :=
  ((collectCommits term stake uids getCommitData).map
    (resolveCommit fetchState)).filter (·.valid)

/-- Lines 270-271: the index of the winning commitment,
`sum_of_seeds % len(valid_commits)`.  Python's `%` on a positive divisor and
Lean's `Int.emod` agree (both give a result in `[0, divisor)`). -/
def selectedIndex (valid_commits : List ResolvedCommit) : Nat :=
  (((valid_commits.map (·.seed)).sum) % (valid_commits.length : Int)).toNat

/-- Embedding of `Validator.get_vote_result` (validator.py lines 223-276). -/
def get_vote_result (term : Int) (stake : Nat → Int) (uids : List Nat)
    (getCommitData : Nat → Option CommitData)
    (fetchState : Nat → Nat → Option StateData) :
    Option Nat × List (List Nat) :=
  let valid_commits := validCommitsOf term stake uids getCommitData fetchState
  if valid_commits.isEmpty then (none, [])
  else
    let voted := valid_commits.getD (selectedIndex valid_commits)
      defaultResolvedCommit
    (some voted.uid, voted.groups)

/-! ### Benchmark thread (`Validator.benchmark`, validator.py lines 160-221)

One decision of the benchmark loop body (lines 168-186), as a pure step
function: the loop either exits, sleeps and retries, declares the benchmark
finished, or probes the current group. -/

inductive BenchAction where
  | exitLoop : BenchAction
  | waitLoop : BenchAction
  | finishBenchmark : BenchAction
  | probeGroup : List Nat → BenchAction
deriving DecidableEq

/-- Lines 168-186 of the benchmark loop body. -/
def benchmarkStep (selfCurrentTerm threadTerm : Int) (termBias : Nat)
    (votedUid : Option Nat) (votedGroups : List (List Nat)) : BenchAction :=
  if threadTerm ≠ selfCurrentTerm then .exitLoop
  else if termBias < BLOCKS_START_BENCHMARK then .waitLoop
  else if votedUid.isNone then .exitLoop
  else
    let currentGroupId := (termBias - BLOCKS_START_BENCHMARK) / BLOCKS_PER_GROUP
    if votedGroups.length ≤ currentGroupId then .finishBenchmark
    else .probeGroup (votedGroups.getD currentGroupId [])

/-! ### Concrete inputs for the vote-resolver claims

Two validators (uids 1 and 2) with stake above the threshold, committing
seeds 7 and 13 for term 0 inside the legal window, both with artifacts whose
stored hash matches the committed seedhash. -/

def exStake : Nat → Int := fun _ => 6000

def exCommitOne : CommitData :=
  { term := 0, block := 0, seedhash := 100, seed := 7, grouphash := 0, version := 0 }

def exCommitTwo : CommitData :=
  { term := 0, block := 0, seedhash := 200, seed := 13, grouphash := 0, version := 0 }

def exGetCommitData : Nat → Option CommitData := fun uid =>
  if uid = 1 then some exCommitOne
  else if uid = 2 then some exCommitTwo
  else none

def exFetchState : Nat → Nat → Option StateData := fun uid _ =>
  if uid = 1 then
    some { term := 0, seed := 7, hash := 100, groups := [[10, 11, 12, 13]], grouphash := 0 }
  else if uid = 2 then
    some { term := 0, seed := 13, hash := 200, groups := [[20, 21, 22, 23]], grouphash := 0 }
  else none

example :
    get_vote_result 0 exStake [1, 2] exGetCommitData exFetchState =
      (some 1, [[10, 11, 12, 13]]) := by decide

example :
    get_vote_result 0 exStake [2, 1] exGetCommitData exFetchState =
      (some 2, [[20, 21, 22, 23]]) := by decide

/-! ### Claim C1 -/

/-- The identity function on integers, used as one concrete instantiation of
the abstract seed-hash function: the resolver never evaluates any hash, so
no choice of hash function can make the reveal-matches-commit check hold. -/
def idHash : Int → Int := fun n => n

/-- A commitment whose declared seed (7) does not hash (under `idHash`) to
its committed seedhash (5), together with a fetched artifact whose stored
`hash` field nevertheless equals the committed seedhash. -/
def badCommit : CommitData :=
  { term := 0, block := 0, seedhash := 5, seed := 7, grouphash := 0, version := 0 }

def badFetchState : Nat → Nat → Option StateData := fun _ _ =>
  some { term := 0, seed := 7, hash := 5, groups := [[1, 2, 3, 4]], grouphash := 0 }

def badGetCommitData : Nat → Option CommitData := fun uid =>
  if uid = 3 then some badCommit else none

/-- C1 (counterexample): the vote resolver marks a commitment valid although
the hash of its declared seed differs from its committed seedhash — the
validity check at validator.py line 255 compares the committed seedhash with
the `hash` field stored in the artifact, never with a recomputed
`hash(seed)`.  Here the commitment declares seed 7 and seedhash 5, the
artifact stores hash 5, and (taking `idHash` as the hash function)
`idHash 7 = 7 ≠ 5`; the commitment is marked valid and even wins the vote. -/
theorem C1_counterexample :
    (resolveCommit badFetchState (3, badCommit)).valid = true ∧
    idHash badCommit.seed ≠ badCommit.seedhash ∧
    get_vote_result 0 exStake [3] badGetCommitData badFetchState =
      (some 3, [[1, 2, 3, 4]]) := by decide

/-- C1 (amended): a commitment is marked valid iff the artifact fetch
succeeds and the committed seedhash equals the `hash` field stored in the
fetched artifact; the resolver never recomputes `hash(seed)`.  In
particular, for an artifact honestly produced by `upload_state` (whose
stored hash is the hash of the artifact's own seed) validity implies that
the committed seedhash is the hash of the artifact's revealed seed. -/
theorem C1_amended (fetchState : Nat → Nat → Option StateData)
    (c : Nat × CommitData) :
    ((resolveCommit fetchState c).valid = true ↔
      ∃ d, fetchState c.1 c.2.version = some d ∧ c.2.seedhash = d.hash) ∧
    (∀ (h : Int → Int) (hg : List (List Nat) → Int) (t s : Int)
        (g : List (List Nat)),
      fetchState c.1 c.2.version = some (upload_state_data h hg t s g) →
      (resolveCommit fetchState c).valid = true →
      c.2.seedhash = h s) := by
  have key : (resolveCommit fetchState c).valid = true ↔
      ∃ d, fetchState c.1 c.2.version = some d ∧ c.2.seedhash = d.hash := by
    unfold resolveCommit
    cases hf : fetchState c.1 c.2.version with
    | none => simp [hf]
    | some d =>
      by_cases hne : c.2.seedhash ≠ d.hash
      · simp [hf, hne]
      · simp only [not_not] at hne
        simp [hf, hne]
  refine ⟨key, ?_⟩
  intro h hg t s g hfetch hvalid
  rcases key.mp hvalid with ⟨d, hd, hh⟩
  rw [hfetch] at hd
  cases hd
  simpa [upload_state_data] using hh

/-- Witness for `C1_amended`: an honest uploader commits seedhash 9 for seed
9 (under `idHash`), the artifact is produced by `upload_state`, and the
amended theorem applies with all hypotheses discharged. -/
def honestCommit : CommitData :=
  { term := 0, block := 0, seedhash := 9, seed := 9, grouphash := 0, version := 0 }

def honestFetchState : Nat → Nat → Option StateData := fun _ _ =>
  some (upload_state_data idHash (fun _ => 0) 0 9 [[1, 2]])

theorem C1_amended_witness :
    ((resolveCommit honestFetchState (4, honestCommit)).valid = true ↔
      ∃ d, honestFetchState 4 honestCommit.version = some d ∧
        honestCommit.seedhash = d.hash) ∧
    honestCommit.seedhash = idHash 9 :=
  ⟨(C1_amended honestFetchState (4, honestCommit)).1,
   (C1_amended honestFetchState (4, honestCommit)).2 idHash (fun _ => 0) 0 9
     [[1, 2]] rfl (by decide)⟩

/-! ### Claim C2 -/

/-- C2: whenever the list of valid commitments is non-empty,
`get_vote_result` returns the uid and groups of the valid commitment at list
index `(sum of seeds) mod (number of valid commitments)`, in discovery
order (validator.py lines 269-276). -/
theorem C2_vote_index (term : Int) (stake : Nat → Int) (uids : List Nat)
    (getCommitData : Nat → Option CommitData)
    (fetchState : Nat → Nat → Option StateData)
    (h : validCommitsOf term stake uids getCommitData fetchState ≠ []) :
    get_vote_result term stake uids getCommitData fetchState =
      (some ((validCommitsOf term stake uids getCommitData fetchState).getD
          ((((validCommitsOf term stake uids getCommitData fetchState).map
              (·.seed)).sum %
            ((validCommitsOf term stake uids getCommitData fetchState).length :
              Int)).toNat)
          defaultResolvedCommit).uid,
        ((validCommitsOf term stake uids getCommitData fetchState).getD
          ((((validCommitsOf term stake uids getCommitData fetchState).map
              (·.seed)).sum %
            ((validCommitsOf term stake uids getCommitData fetchState).length :
              Int)).toNat)
          defaultResolvedCommit).groups) := by
  have hne : (validCommitsOf term stake uids getCommitData fetchState).isEmpty
      = false := by
    cases hv : validCommitsOf term stake uids getCommitData fetchState with
    | nil => exact absurd hv h
    | cons a t => rfl
  simp [get_vote_result, selectedIndex, hne]

/-- Witness for `C2_vote_index`: two valid commitments with seeds 7 and 13;
the sum is 20, `20 mod 2 = 0`, and the commitment at index 0 in discovery
order (validator uid 1) wins with its groups. -/
theorem C2_vote_index_witness :
    validCommitsOf 0 exStake [1, 2] exGetCommitData exFetchState ≠ [] ∧
    get_vote_result 0 exStake [1, 2] exGetCommitData exFetchState =
      (some ((validCommitsOf 0 exStake [1, 2] exGetCommitData
          exFetchState).getD
          ((((validCommitsOf 0 exStake [1, 2] exGetCommitData
              exFetchState).map (·.seed)).sum %
            ((validCommitsOf 0 exStake [1, 2] exGetCommitData
              exFetchState).length : Int)).toNat)
          defaultResolvedCommit).uid,
        ((validCommitsOf 0 exStake [1, 2] exGetCommitData exFetchState).getD
          ((((validCommitsOf 0 exStake [1, 2] exGetCommitData
              exFetchState).map (·.seed)).sum %
            ((validCommitsOf 0 exStake [1, 2] exGetCommitData
              exFetchState).length : Int)).toNat)
          defaultResolvedCommit).groups) ∧
    get_vote_result 0 exStake [1, 2] exGetCommitData exFetchState =
      (some 1, [[10, 11, 12, 13]]) :=
  ⟨by decide,
   C2_vote_index 0 exStake [1, 2] exGetCommitData exFetchState (by decide),
   by decide⟩

/-! ### Claim C3 -/

/-- C3 (counterexample): the winner is *not* invariant under permutation of
the discovery order.  With the same two valid commitments (seeds 7 and 13,
sum 20, `20 mod 2 = 0`), discovery order `[1, 2]` elects validator 1 with
its groups, while discovery order `[2, 1]` elects validator 2 with different
groups — the two runs see permutations of the same set of valid
commitments, yet return different winners. -/
theorem C3_counterexample :
    (validCommitsOf 0 exStake [2, 1] exGetCommitData exFetchState).Perm
      (validCommitsOf 0 exStake [1, 2] exGetCommitData exFetchState) ∧
    get_vote_result 0 exStake [1, 2] exGetCommitData exFetchState =
      (some 1, [[10, 11, 12, 13]]) ∧
    get_vote_result 0 exStake [2, 1] exGetCommitData exFetchState =
      (some 2, [[20, 21, 22, 23]]) ∧
    get_vote_result 0 exStake [1, 2] exGetCommitData exFetchState ≠
      get_vote_result 0 exStake [2, 1] exGetCommitData exFetchState := by
  decide

/-- C3 (amended): only the *selection data* of the vote rule is
order-independent: permuting the valid commitments preserves the sum of
seeds, the count, and hence the selected index `sum mod count`; the winner
itself is the element at that index in discovery order, so it can change
under permutation (see the counterexample).  Resolution remains
deterministic: the output is a function of the ordered valid-commitment
list. -/
theorem C3_amended (v w : List ResolvedCommit) (hp : v.Perm w) :
    (v.map (·.seed)).sum = (w.map (·.seed)).sum ∧
    v.length = w.length ∧
    selectedIndex v = selectedIndex w := by
  have hsum : (v.map (·.seed)).sum = (w.map (·.seed)).sum :=
    (hp.map (·.seed)).sum_eq
  have hlen : v.length = w.length := hp.length_eq
  exact ⟨hsum, hlen, by unfold selectedIndex; rw [hsum, hlen]⟩

def exResolvedOne : ResolvedCommit :=
  { uid := 1, term := 0, block := 0, seedhash := 100, seed := 7, grouphash := 0,
    version := 0, valid := true, groups := [[10, 11, 12, 13]] }

def exResolvedTwo : ResolvedCommit :=
  { uid := 2, term := 0, block := 0, seedhash := 200, seed := 13, grouphash := 0,
    version := 0, valid := true, groups := [[20, 21, 22, 23]] }

theorem C3_amended_witness :
    [exResolvedTwo, exResolvedOne].Perm [exResolvedOne, exResolvedTwo] ∧
    (([exResolvedTwo, exResolvedOne].map (·.seed)).sum =
      ([exResolvedOne, exResolvedTwo].map (·.seed)).sum ∧
     [exResolvedTwo, exResolvedOne].length =
      [exResolvedOne, exResolvedTwo].length ∧
     selectedIndex [exResolvedTwo, exResolvedOne] =
      selectedIndex [exResolvedOne, exResolvedTwo]) :=
  ⟨by decide,
   C3_amended [exResolvedTwo, exResolvedOne] [exResolvedOne, exResolvedTwo]
     (by decide)⟩

/-! ### Claim C5 -/

/-- C5: when no commitment is valid for the current term, `get_vote_result`
returns the no-winner pair `(None, [])` (validator.py lines 266-268) instead
of failing, and the benchmark loop body, once inside the benchmark window
with the terms in agreement, exits without probing any group when
`voted_uid` is `None` (validator.py lines 174-177). -/
theorem C5_no_winner_skips_benchmark (term : Int) (stake : Nat → Int)
    (uids : List Nat) (getCommitData : Nat → Option CommitData)
    (fetchState : Nat → Nat → Option StateData)
    (h : validCommitsOf term stake uids getCommitData fetchState = []) :
    get_vote_result term stake uids getCommitData fetchState = (none, []) ∧
    (∀ (t : Int) (termBias : Nat) (gs : List (List Nat)),
      BLOCKS_START_BENCHMARK ≤ termBias →
      benchmarkStep t t termBias none gs = BenchAction.exitLoop) := by
  constructor
  · simp [get_vote_result, h]
  · intro t termBias gs hb
    unfold benchmarkStep
    rw [if_neg (fun hne => hne rfl), if_neg (Nat.not_lt.mpr hb)]
    simp

/-- Witness for `C5_no_winner_skips_benchmark`: with no validator uid at all,
the valid-commitment list is empty, the resolver reports no winner, and the
benchmark step at offset 40 exits without probing. -/
theorem C5_no_winner_skips_benchmark_witness :
    validCommitsOf 0 exStake [] exGetCommitData exFetchState = [] ∧
    get_vote_result 0 exStake [] exGetCommitData exFetchState = (none, []) ∧
    benchmarkStep 0 0 40 none [[10, 11]] = BenchAction.exitLoop :=
  ⟨by decide,
   (C5_no_winner_skips_benchmark 0 exStake [] exGetCommitData exFetchState
     (by decide)).1,
   (C5_no_winner_skips_benchmark 0 exStake [] exGetCommitData exFetchState
     (by decide)).2 0 40 [[10, 11]] (by decide)⟩

/-! ### Worker clustering engine (`Validator.cluster_miners`, validator.py
lines 321-419)

A metagraph row as read by `cluster_miners`: the worker's uid, stake, axon
ip, and the `job_id` of the validator's miner-status record.  Addresses only
ever flow into equality tests (`!= "0.0.0.0"`, the dedup set, `ips.index`)
and into sklearn's k-means — whose label assignment is modelled as an
arbitrary function, so the numeric `ip_to_int` conversion never needs to be
evaluated. -/

structure MinerInfo where
  uid : Nat
  stake : Int
  ip : String
  jobId : Int
deriving DecidableEq

/-- The eligibility filter of validator.py line 344:
stake below the validator threshold, non-null ip, non-negative job id. -/
def isEligibleMiner (m : MinerInfo) : Bool :=
  decide (m.stake < VALIDATOR_MIN_STAKE) && (m.ip != "0.0.0.0") &&
    decide (0 ≤ m.jobId)

/-- One step of the duplicate-ip filter of validator.py lines 356-362: the
state is the `unique_ips` set (as a list) and `filtered_miner_uids`. -/
def dedupStep (st : List String × List MinerInfo) (m : MinerInfo) :
    List String × List MinerInfo :=
  if m.stake < VALIDATOR_MIN_STAKE ∧ m.ip ≠ "0.0.0.0" ∧ m.ip ∉ st.1 then
    (m.ip :: st.1, st.2 ++ [m])
  else st

/-- Lines 353-366: deduplicate the miner list by ip, first-seen wins. -/
def dedupByIp (ms : List MinerInfo) : List MinerInfo :=
  (ms.foldl dedupStep ([], [])).2

/-- Insertion into the label dictionary of validator.py lines 376-380: a
Python dict keyed by cluster label, preserving first-occurrence key order,
each value collecting ips in list order. -/
def insertLabeled (acc : List (Nat × List String)) (lab : Nat) (ip : String) :
    List (Nat × List String) :=
  match acc with
  | [] => [(lab, [ip])]
  | (l, g) :: rest =>
    if l = lab then (l, g ++ [ip]) :: rest
    else (l, g) :: insertLabeled rest lab ip

/-- The loop `for i, label in enumerate(labels): groups[label].append(ips[i])`
(lines 377-380), walking the ips with their positional index; `labels` is
the k-means label array, modelled as a function of the sample index. -/
def buildLabelGroups (labels : Nat → Nat) :
    Nat → List String → List (Nat × List String) → List (Nat × List String)
  | _, [], acc => acc
  | i, ip :: rest, acc =>
    buildLabelGroups labels (i + 1) rest (insertLabeled acc (labels i) ip)

/-- Lines 376-383: `groups_list = list(groups.values())`. -/
def groupsByLabel (ips : List String) (labels : Nat → Nat) :
    List (List String) :=
  (buildLabelGroups labels 0 ips []).map (·.2)

/-- The chunking loop of lines 390-396: cut a group into consecutive
4-element chunks; the chunks of size exactly 4 go to `final_groups`, the
trailing shorter chunk (if any) goes to `leftovers`. -/
def split4 : List String → List (List String) × List String
  | a :: b :: c :: d :: rest =>
    let p := split4 rest
    ([a, b, c, d] :: p.1, p.2)
  | rest => ([], rest)

/-- Lines 388-400: route every label group into `final_groups` (size-4
groups) and `leftovers`, in iteration order. -/
def processGroups : List (List String) → List (List String) × List String
  | [] => ([], [])
  | g :: rest =>
    let p := processGroups rest
    if 4 < g.length then
      let s := split4 g
      (s.1 ++ p.1, s.2 ++ p.2)
    else if g.length < 4 then (p.1, g ++ p.2)
    else (g :: p.1, p.2)

/-- The `while len(leftovers) >= 4` loop of lines 403-405: while at least 4
leftovers remain, `leftovers[:4]` is appended to `final_groups` and dropped
from `leftovers`. -/
def mergeLeftovers :
    List (List String) → List String → List (List String) × List String
  | finals, a :: b :: c :: d :: rest =>
    mergeLeftovers (finals ++ [[a, b, c, d]]) rest
  | finals, rest => (finals, rest)

/-- Lines 412-417: translate an ip back to a uid via
`miner_uids[ips.index(ip)]`; after deduplication the ips are pairwise
distinct, so this is the uid of the first (unique) record carrying the ip.
(`list.index` raises on a missing ip; the groups only ever contain ips of
the deduplicated list, so the `none` branch is unreachable and its value 0
is immaterial.) -/
def uidForIp (filtered : List MinerInfo) (ip : String) : Nat :=
  match filtered.find? (fun m => m.ip == ip) with
  | some m => m.uid
  | none => 0

/-- Embedding of `Validator.cluster_miners` (validator.py lines 321-419).

* `shuffle` models `random.shuffle(uid_groups)` at line 418; every theorem
  assumes only that it permutes its argument.
* `minerStatusPresent` models the `self.miner_status is None` early return
  at lines 341-342.
* `labels` (the k-means cluster assignment for each sample index) models
  `KMeans(...).fit(...).labels_` at lines 372-373, as an arbitrary
  assignment; sklearn raises `ValueError` when `n_clusters = len // 4 = 0`,
  which is modelled as the `none` result. -/
def cluster_miners (shuffle : List (List Nat) → List (List Nat))
    (minerStatusPresent : Bool) (metagraph : List MinerInfo)
    (labels : Nat → Nat) : Option (List (List Nat)) :=
  if !minerStatusPresent then some []
  else
    let miner_uids := metagraph.filter isEligibleMiner
    if miner_uids.isEmpty then some []
    else
      let filtered := dedupByIp miner_uids
      let ips := filtered.map (·.ip)
      let group_count := filtered.length / 4
      if group_count = 0 then none
      else
        let groups_list := groupsByLabel ips labels
        let p := processGroups groups_list
        let q := mergeLeftovers p.1 p.2
        let final_groups := q.1 ++ [q.2]
        let uid_groups := final_groups.map (fun g => g.map (uidForIp filtered))
        some (shuffle uid_groups)

/- Scratch evaluations of the embedding on small inputs. -/
example :
    cluster_miners id true
      [{ uid := 1, stake := 0, ip := "1.0.0.1", jobId := 0 },
       { uid := 2, stake := 0, ip := "1.0.0.2", jobId := 0 },
       { uid := 3, stake := 0, ip := "1.0.0.3", jobId := 0 },
       { uid := 4, stake := 0, ip := "1.0.0.4", jobId := 0 },
       { uid := 5, stake := 0, ip := "1.0.0.5", jobId := 0 }]
      (fun _ => 0) = some [[1, 2, 3, 4], [5]] := by decide

example :
    cluster_miners id true
      [{ uid := 1, stake := 0, ip := "1.0.0.1", jobId := 0 },
       { uid := 2, stake := 0, ip := "1.0.0.2", jobId := 0 },
       { uid := 3, stake := 0, ip := "1.0.0.3", jobId := 0 }]
      (fun _ => 0) = none := by decide

example : cluster_miners id true [] (fun _ => 0) = some [] := by decide

example :
    cluster_miners id true
      [{ uid := 1, stake := 0, ip := "1.0.0.1", jobId := 0 },
       { uid := 2, stake := 0, ip := "1.0.0.2", jobId := 0 },
       { uid := 3, stake := 0, ip := "1.0.0.3", jobId := 0 },
       { uid := 4, stake := 0, ip := "1.0.0.4", jobId := 0 }]
      (fun i => i) = some [[1, 2, 3, 4], []] := by decide


/-! ### Permutation helpers -/

theorem permMidSwap {α : Type} (a b c d : List α) :
    (a ++ b ++ (c ++ d)).Perm ((a ++ c) ++ (b ++ d)) := by
  simp only [List.append_assoc]
  refine List.Perm.append_left a ?_
  have h1 : b ++ (c ++ d) = (b ++ c) ++ d := (List.append_assoc b c d).symm
  have h2 : ((b ++ c) ++ d).Perm ((c ++ b) ++ d) :=
    List.Perm.append_right d List.perm_append_comm
  have h3 : (c ++ b) ++ d = c ++ (b ++ d) := List.append_assoc c b d
  rw [h1, ← h3]
  exact h2

theorem permFlatten {α : Type} {l₁ l₂ : List (List α)} (p : l₁.Perm l₂) :
    l₁.flatten.Perm l₂.flatten := by
  induction p with
  | nil => exact List.Perm.refl _
  | cons x _ ih => exact List.Perm.append_left x ih
  | swap x y l => simpa using permMidSwap [] y x (l.flatten)
  | trans _ _ ih₁ ih₂ => exact ih₁.trans ih₂

/-! ### Structural lemmas for the label-grouping step -/

theorem insertLabeled_flatten (acc : List (Nat × List String)) (lab : Nat)
    (ip : String) :
    ((insertLabeled acc lab ip).map (·.2)).flatten.Perm
      (((acc.map (·.2)).flatten) ++ [ip]) := by
  induction acc with
  | nil => simp [insertLabeled]
  | cons hd tl ih =>
    obtain ⟨l, g⟩ := hd
    by_cases hl : l = lab
    · simp only [insertLabeled, if_pos hl, List.map_cons, List.flatten_cons]
      simp only [List.append_assoc]
      refine List.Perm.append_left g ?_
      exact List.perm_append_comm
    · simp only [insertLabeled, if_neg hl, List.map_cons, List.flatten_cons]
      refine (List.Perm.append_left g ih).trans ?_
      rw [List.append_assoc]

theorem buildLabelGroups_flatten (labels : Nat → Nat) :
    ∀ (l : List String) (i : Nat) (acc : List (Nat × List String)),
    ((buildLabelGroups labels i l acc).map (·.2)).flatten.Perm
      (((acc.map (·.2)).flatten) ++ l) := by
  intro l
  induction l with
  | nil => intro i acc; simp [buildLabelGroups]
  | cons ip rest ih =>
    intro i acc
    simp only [buildLabelGroups]
    refine (ih (i + 1) (insertLabeled acc (labels i) ip)).trans ?_
    refine (List.Perm.append_right rest
      (insertLabeled_flatten acc (labels i) ip)).trans ?_
    rw [List.append_assoc]
    exact List.Perm.refl _

theorem groupsByLabel_flatten (ips : List String) (labels : Nat → Nat) :
    (groupsByLabel ips labels).flatten.Perm ips := by
  simpa [groupsByLabel] using buildLabelGroups_flatten labels ips 0 []

/-! ### Structural lemmas for the chunking and leftover steps -/

theorem split4_flatten :
    ∀ g : List String, (split4 g).1.flatten ++ (split4 g).2 = g
  | a :: b :: c :: d :: rest => by
    simp [split4, split4_flatten rest]
  | [] => rfl
  | [a] => rfl
  | [a, b] => rfl
  | [a, b, c] => rfl

theorem split4_mem_length :
    ∀ (g : List String), ∀ c ∈ (split4 g).1, c.length = 4
  | a :: b :: c :: d :: rest => by
    intro x hx
    simp only [split4] at hx
    rcases List.mem_cons.mp hx with hx | hx
    · rw [hx]; rfl
    · exact split4_mem_length rest x hx
  | [] => by intro x hx; simp [split4] at hx
  | [a] => by intro x hx; simp [split4] at hx
  | [a, b] => by intro x hx; simp [split4] at hx
  | [a, b, c] => by intro x hx; simp [split4] at hx

theorem split4_rem_length :
    ∀ g : List String, (split4 g).2.length ≤ 3
  | a :: b :: c :: d :: rest => by
    simpa [split4] using split4_rem_length rest
  | [] => by decide
  | [a] => by simp [split4]
  | [a, b] => by simp [split4]
  | [a, b, c] => by simp [split4]

theorem processGroups_flatten (gs : List (List String)) :
    ((processGroups gs).1.flatten ++ (processGroups gs).2).Perm gs.flatten := by
  induction gs with
  | nil => simp [processGroups]
  | cons g rest ih =>
    simp only [processGroups, List.flatten_cons]
    by_cases h1 : 4 < g.length
    · simp only [if_pos h1, List.flatten_append]
      refine (permMidSwap (split4 g).1.flatten
        (processGroups rest).1.flatten (split4 g).2
        (processGroups rest).2).trans ?_
      rw [split4_flatten g]
      exact List.Perm.append_left g ih
    · simp only [if_neg h1]
      by_cases h2 : g.length < 4
      · simp only [if_pos h2]
        refine (permMidSwap [] (processGroups rest).1.flatten g
          (processGroups rest).2).trans ?_
        exact List.Perm.append_left g ih
      · simp only [if_neg h2, List.flatten_cons, List.append_assoc]
        exact List.Perm.append_left g ih

theorem processGroups_mem_length (gs : List (List String)) :
    ∀ c ∈ (processGroups gs).1, c.length = 4 := by
  induction gs with
  | nil => intro c hc; simp [processGroups] at hc
  | cons g rest ih =>
    intro c hc
    simp only [processGroups] at hc
    by_cases h1 : 4 < g.length
    · rw [if_pos h1] at hc
      rcases List.mem_append.mp hc with hc | hc
      · exact split4_mem_length g c hc
      · exact ih c hc
    · rw [if_neg h1] at hc
      by_cases h2 : g.length < 4
      · rw [if_pos h2] at hc
        exact ih c hc
      · rw [if_neg h2] at hc
        rcases List.mem_cons.mp hc with hc | hc
        · rw [hc]; omega
        · exact ih c hc

theorem mergeLeftovers_flatten :
    ∀ (lf : List String) (fn : List (List String)),
      (mergeLeftovers fn lf).1.flatten ++ (mergeLeftovers fn lf).2 =
        fn.flatten ++ lf
  | a :: b :: c :: d :: rest, fn => by
    simp [mergeLeftovers, mergeLeftovers_flatten rest (fn ++ [[a, b, c, d]])]
  | [], fn => by simp [mergeLeftovers]
  | [a], fn => by simp [mergeLeftovers]
  | [a, b], fn => by simp [mergeLeftovers]
  | [a, b, c], fn => by simp [mergeLeftovers]

theorem mergeLeftovers_mem :
    ∀ (lf : List String) (fn : List (List String)),
      ∀ c ∈ (mergeLeftovers fn lf).1, c ∈ fn ∨ c.length = 4
  | a :: b :: c :: d :: rest, fn => by
    intro x hx
    simp only [mergeLeftovers] at hx
    rcases mergeLeftovers_mem rest (fn ++ [[a, b, c, d]]) x hx with hx' | hx'
    · rcases List.mem_append.mp hx' with hx'' | hx''
      · exact Or.inl hx''
      · right
        have : x = [a, b, c, d] := by simpa using hx''
        rw [this]; rfl
    · exact Or.inr hx'
  | [], fn => by intro x hx; exact Or.inl hx
  | [a], fn => by intro x hx; exact Or.inl hx
  | [a, b], fn => by intro x hx; exact Or.inl hx
  | [a, b, c], fn => by intro x hx; exact Or.inl hx

theorem mergeLeftovers_rem_length :
    ∀ (lf : List String) (fn : List (List String)),
      (mergeLeftovers fn lf).2.length ≤ 3
  | a :: b :: c :: d :: rest, fn => by
    simpa [mergeLeftovers] using
      mergeLeftovers_rem_length rest (fn ++ [[a, b, c, d]])
  | [], fn => by simp [mergeLeftovers]
  | [a], fn => by simp [mergeLeftovers]
  | [a, b], fn => by simp [mergeLeftovers]
  | [a, b, c], fn => by simp [mergeLeftovers]

theorem flatten_length_of_all4 {α : Type} :
    ∀ (fs : List (List α)), (∀ c ∈ fs, c.length = 4) →
      fs.flatten.length = 4 * fs.length := by
  intro fs
  induction fs with
  | nil => intro _; rfl
  | cons g rest ih =>
    intro h
    simp only [List.flatten_cons, List.length_append, List.length_cons]
    rw [h g (List.mem_cons_self g rest), ih (fun c hc => h c (List.mem_cons_of_mem g hc))]
    ring

/-! ### Lemmas about the duplicate-ip filter -/

theorem dedupAux_nodup :
    ∀ (ms : List MinerInfo) (st : List String × List MinerInfo),
      (st.2.map (·.ip)).Nodup → (∀ x ∈ st.2, x.ip ∈ st.1) →
      ((ms.foldl dedupStep st).2.map (·.ip)).Nodup ∧
        ∀ x ∈ (ms.foldl dedupStep st).2, x.ip ∈ (ms.foldl dedupStep st).1 := by
  intro ms
  induction ms with
  | nil => intro st h1 h2; exact ⟨h1, h2⟩
  | cons m rest ih =>
    intro st h1 h2
    simp only [List.foldl_cons]
    unfold dedupStep
    by_cases hc : m.stake < VALIDATOR_MIN_STAKE ∧ m.ip ≠ "0.0.0.0" ∧
        m.ip ∉ st.1
    · rw [if_pos hc]
      refine ih (m.ip :: st.1, st.2 ++ [m]) ?_ ?_
      · simp only [List.map_append, List.map_cons, List.map_nil]
        rw [List.nodup_append]
        refine ⟨h1, List.nodup_singleton m.ip, ?_⟩
        intro y hy hy'
        have hy'' : y = m.ip := by simpa using hy'
        rcases List.mem_map.mp hy with ⟨x, hx, hxy⟩
        exact hc.2.2 (hy'' ▸ hxy ▸ h2 x hx)
      · intro x hx
        rcases List.mem_append.mp hx with hx | hx
        · exact List.mem_cons_of_mem _ (h2 x hx)
        · have : x = m := by simpa using hx
          rw [this]
          exact List.mem_cons_self _ _
    · rw [if_neg hc]
      exact ih st h1 h2

theorem dedupByIp_nodup (ms : List MinerInfo) :
    ((dedupByIp ms).map (·.ip)).Nodup :=
  (dedupAux_nodup ms ([], []) (by simp) (by simp)).1

theorem dedupAux_sublist :
    ∀ (ms : List MinerInfo) (st : List String × List MinerInfo),
      ∃ sub, (ms.foldl dedupStep st).2 = st.2 ++ sub ∧ sub.Sublist ms := by
  intro ms
  induction ms with
  | nil => intro st; exact ⟨[], by simp, List.Sublist.refl []⟩
  | cons m rest ih =>
    intro st
    simp only [List.foldl_cons]
    unfold dedupStep
    by_cases hc : m.stake < VALIDATOR_MIN_STAKE ∧ m.ip ≠ "0.0.0.0" ∧
        m.ip ∉ st.1
    · rw [if_pos hc]
      rcases ih (m.ip :: st.1, st.2 ++ [m]) with ⟨sub, hsub, hsl⟩
      exact ⟨m :: sub, by simpa [List.append_assoc] using hsub,
        List.Sublist.cons₂ m hsl⟩
    · rw [if_neg hc]
      rcases ih st with ⟨sub, hsub, hsl⟩
      exact ⟨sub, hsub, List.Sublist.cons m hsl⟩

theorem dedupByIp_sublist (ms : List MinerInfo) :
    (dedupByIp ms).Sublist ms := by
  rcases dedupAux_sublist ms ([], []) with ⟨sub, hsub, hsl⟩
  unfold dedupByIp
  rw [hsub]
  simpa using hsl

theorem dedupAux_id :
    ∀ (ms : List MinerInfo) (st : List String × List MinerInfo),
      (∀ m ∈ ms, isEligibleMiner m = true) → ((ms.map (·.ip)).Nodup) →
      (∀ m ∈ ms, m.ip ∉ st.1) →
      (ms.foldl dedupStep st).2 = st.2 ++ ms := by
  intro ms
  induction ms with
  | nil => intro st _ _ _; simp
  | cons m rest ih =>
    intro st he hn hs
    have helig := he m (List.mem_cons_self m rest)
    have hstake : m.stake < VALIDATOR_MIN_STAKE := by
      simp only [isEligibleMiner, Bool.and_eq_true, decide_eq_true_eq] at helig
      exact helig.1.1
    have hip : m.ip ≠ "0.0.0.0" := by
      simp only [isEligibleMiner, Bool.and_eq_true, decide_eq_true_eq,
        bne_iff_ne] at helig
      exact helig.1.2
    have hn' : (m.ip ∉ rest.map (·.ip)) ∧ (rest.map (·.ip)).Nodup :=
      List.nodup_cons.mp (by simpa using hn)
    have hstep : dedupStep st m = (m.ip :: st.1, st.2 ++ [m]) := by
      unfold dedupStep
      rw [if_pos ⟨hstake, hip, hs m (List.mem_cons_self m rest)⟩]
    have hrest : ∀ x ∈ rest, x.ip ∉ m.ip :: st.1 := by
      intro x hx
      simp only [List.mem_cons, not_or]
      exact ⟨fun hxm => hn'.1 (hxm ▸ List.mem_map_of_mem (·.ip) hx),
        hs x (List.mem_cons_of_mem m hx)⟩
    rw [List.foldl_cons, hstep,
      ih (m.ip :: st.1, st.2 ++ [m])
        (fun x hx => he x (List.mem_cons_of_mem m hx)) hn'.2 hrest]
    simp

theorem dedupByIp_id (ms : List MinerInfo)
    (he : ∀ m ∈ ms, isEligibleMiner m = true)
    (hn : (ms.map (·.ip)).Nodup) : dedupByIp ms = ms := by
  unfold dedupByIp
  rw [dedupAux_id ms ([], []) he hn (by simp)]
  rfl

/-! ### Translating ips back to uids -/

theorem map_uidForIp :
    ∀ (fl : List MinerInfo), ((fl.map (·.ip)).Nodup) →
      (fl.map (·.ip)).map (uidForIp fl) = fl.map (·.uid) := by
  intro fl
  induction fl with
  | nil => intro _; rfl
  | cons m t ih =>
    intro hn
    have hn' : (m.ip ∉ t.map (·.ip)) ∧ (t.map (·.ip)).Nodup :=
      List.nodup_cons.mp (by simpa using hn)
    simp only [List.map_cons]
    have hhead : uidForIp (m :: t) m.ip = m.uid := by
      unfold uidForIp
      rw [List.find?_cons_of_pos _ (by simp)]
    have htail : (t.map (·.ip)).map (uidForIp (m :: t)) =
        (t.map (·.ip)).map (uidForIp t) := by
      refine List.map_congr_left ?_
      intro x hx
      have hxm : (m.ip == x) = false := by
        rcases List.mem_map.mp hx with ⟨y, hy, hxy⟩
        exact beq_eq_false_iff_ne.mpr
          (fun hmx => hn'.1 (hmx ▸ hxy ▸ List.mem_map_of_mem (·.ip) hy))
      unfold uidForIp
      rw [List.find?_cons_of_neg _ (by simpa using hxm)]
    rw [hhead, htail, ih hn'.2]

/-! ### Counting in how many groups a uid occurs -/

theorem countP_mem_of_flatten_count_zero :
    ∀ (gs : List (List Nat)) (u : Nat), gs.flatten.count u = 0 →
      gs.countP (fun g => decide (u ∈ g)) = 0 := by
  intro gs u
  induction gs with
  | nil => intro _; rfl
  | cons g rest ih =>
    intro h
    rw [List.flatten_cons, List.count_append] at h
    have hg : g.count u = 0 := by omega
    have hrest : rest.flatten.count u = 0 := by omega
    rw [List.countP_cons, ih hrest]
    have : decide (u ∈ g) = false := by
      simp only [decide_eq_false_iff_not]
      exact fun hm => by
        have := List.count_pos_iff.mpr hm
        omega
    simp [this]

theorem countP_mem_of_flatten_count_one :
    ∀ (gs : List (List Nat)) (u : Nat), gs.flatten.count u = 1 →
      gs.countP (fun g => decide (u ∈ g)) = 1 := by
  intro gs u
  induction gs with
  | nil => intro h; simp at h
  | cons g rest ih =>
    intro h
    rw [List.flatten_cons, List.count_append] at h
    rw [List.countP_cons]
    by_cases hg : u ∈ g
    · have hg1 : 1 ≤ g.count u := List.count_pos_iff.mpr hg
      have hrest : rest.flatten.count u = 0 := by omega
      rw [countP_mem_of_flatten_count_zero rest u hrest]
      simp [hg]
    · have hg0 : g.count u = 0 := List.count_eq_zero.mpr hg
      have hrest : rest.flatten.count u = 1 := by omega
      rw [ih hrest]
      simp [hg]

/-! ### The structure of every `cluster_miners` output -/

/-- Every successful `cluster_miners` run on a metagraph with at least one
eligible miner produces (up to the final shuffle) a list of size-4 groups
followed by one leftover group: with `m` the number of
address-deduplicated eligible miners, there are `m / 4` groups of size 4,
the leftover group has size `m % 4`, and the concatenation of all groups is
a permutation of the deduplicated miners' uids. -/
theorem cluster_structure (shuffle : List (List Nat) → List (List Nat))
    (hs : ∀ l, (shuffle l).Perm l) (mg : List MinerInfo) (labels : Nat → Nat)
    (gs : List (List Nat))
    (hne : (mg.filter isEligibleMiner).isEmpty = false)
    (h : cluster_miners shuffle true mg labels = some gs) :
    ∃ F L, gs.Perm (F ++ [L]) ∧ (∀ c ∈ F, c.length = 4) ∧
      F.length = (dedupByIp (mg.filter isEligibleMiner)).length / 4 ∧
      L.length = (dedupByIp (mg.filter isEligibleMiner)).length % 4 ∧
      (F ++ [L]).flatten.Perm
        ((dedupByIp (mg.filter isEligibleMiner)).map (·.uid)) := by
  by_cases hgc : (dedupByIp (mg.filter isEligibleMiner)).length / 4 = 0
  · exfalso
    simp [cluster_miners, hne, hgc] at h
  · simp only [cluster_miners, Bool.not_true, Bool.false_eq_true, if_false,
      hne, hgc, Option.some.injEq] at h
    set fl := dedupByIp (mg.filter isEligibleMiner) with hfl
    set ips := fl.map (·.ip) with hips
    set p := processGroups (groupsByLabel ips labels) with hpdef
    set q := mergeLeftovers p.1 p.2 with hqdef
    set f := uidForIp fl with hfdef
    have hflat : q.1.flatten ++ q.2 = p.1.flatten ++ p.2 :=
      mergeLeftovers_flatten p.2 p.1
    have hperm : (p.1.flatten ++ p.2).Perm ips :=
      (processGroups_flatten _).trans (groupsByLabel_flatten ips labels)
    have hall4 : ∀ c ∈ q.1, c.length = 4 := fun c hc =>
      (mergeLeftovers_mem p.2 p.1 c hc).elim (processGroups_mem_length _ c) id
    have h4 : q.1.flatten.length = 4 * q.1.length :=
      flatten_length_of_all4 q.1 hall4
    have hrem : q.2.length ≤ 3 := mergeLeftovers_rem_length p.2 p.1
    have hlen : q.1.flatten.length + q.2.length = fl.length := by
      have h1 := congrArg List.length hflat
      have h2 := hperm.length_eq
      simp only [List.length_append] at h1 h2
      rw [hips, List.length_map] at h2
      omega
    refine ⟨q.1.map (fun g => g.map f), q.2.map f, ?_, ?_, ?_, ?_, ?_⟩
    · rw [← h]
      simpa using hs ((q.1 ++ [q.2]).map (fun g => g.map f))
    · intro c hc
      rcases List.mem_map.mp hc with ⟨c', hc', rfl⟩
      rw [List.length_map]
      exact hall4 c' hc'
    · rw [List.length_map]
      omega
    · rw [List.length_map]
      omega
    · have heq : ((q.1.map (fun g => g.map f)) ++ [q.2.map f]).flatten =
          (q.1.flatten ++ q.2).map f := by
        rw [List.flatten_append, ← List.map_flatten, List.map_append]
        simp
      rw [heq, hflat]
      refine (hperm.map f).trans ?_
      rw [hips, hfdef,
        map_uidForIp fl (dedupByIp_nodup (mg.filter isEligibleMiner))]

/-! ### Claim C4 -/

/-- Five eligible workers, two of which (uids 4 and 5) share the address
"1.0.0.4": uid 5 is dropped by the first-seen deduplication. -/
def mgDup : List MinerInfo :=
  [{ uid := 1, stake := 0, ip := "1.0.0.1", jobId := 0 },
   { uid := 2, stake := 0, ip := "1.0.0.2", jobId := 0 },
   { uid := 3, stake := 0, ip := "1.0.0.3", jobId := 0 },
   { uid := 4, stake := 0, ip := "1.0.0.4", jobId := 0 },
   { uid := 5, stake := 0, ip := "1.0.0.4", jobId := 0 }]

/-- C4 (counterexample): an *eligible* worker can appear in **zero** groups.
Worker 5 passes the eligibility filter but shares its address with worker 4,
so address deduplication (first-seen wins) drops it and the output contains
it in no group. -/
theorem C4_counterexample :
    isEligibleMiner { uid := 5, stake := 0, ip := "1.0.0.4", jobId := 0 } =
      true ∧
    ({ uid := 5, stake := 0, ip := "1.0.0.4", jobId := 0 } : MinerInfo) ∈
      mgDup.filter isEligibleMiner ∧
    cluster_miners id true mgDup (fun _ => 0) = some [[1, 2, 3, 4], []] ∧
    ([[1, 2, 3, 4], []] : List (List Nat)).countP
      (fun g => decide ((5 : Nat) ∈ g)) = 0 := by decide

/-- C4 (amended): every eligible worker *that survives the first-seen
address deduplication* appears in exactly one group (an eligible worker
whose address was already taken appears in none — see the counterexample),
and at most one group of the output has a size other than 4. -/
theorem C4_amended (shuffle : List (List Nat) → List (List Nat))
    (mg : List MinerInfo) (labels : Nat → Nat) (gs : List (List Nat))
    (hs : ∀ l, (shuffle l).Perm l)
    (hnd : (mg.map (·.uid)).Nodup)
    (h : cluster_miners shuffle true mg labels = some gs) :
    (∀ u ∈ (dedupByIp (mg.filter isEligibleMiner)).map (·.uid),
      gs.countP (fun g => decide (u ∈ g)) = 1) ∧
    gs.countP (fun g => decide (g.length ≠ 4)) ≤ 1 := by
  by_cases hne : (mg.filter isEligibleMiner).isEmpty = true
  · have hnil : mg.filter isEligibleMiner = [] := by simpa using hne
    have hgs : gs = [] := by
      simp [cluster_miners, List.isEmpty_iff.mpr hnil] at h
      exact h
    constructor
    · intro u hu
      rw [hnil] at hu
      simp [dedupByIp] at hu
    · rw [hgs]
      simp
  · have hne' : (mg.filter isEligibleMiner).isEmpty = false := by
      simpa using hne
    rcases cluster_structure shuffle hs mg labels gs hne' h with
      ⟨F, L, hperm, hF4, hFlen, hLlen, hflatperm⟩
    have hnodup :
        ((dedupByIp (mg.filter isEligibleMiner)).map (·.uid)).Nodup :=
      hnd.sublist
        (((dedupByIp_sublist (mg.filter isEligibleMiner)).trans
          (List.filter_sublist mg)).map (·.uid))
    constructor
    · intro u hu
      have hcount : gs.flatten.count u = 1 := by
        rw [((permFlatten hperm).trans hflatperm).count_eq u]
        exact List.count_eq_one_of_mem hnodup hu
      exact countP_mem_of_flatten_count_one gs u hcount
    · rw [hperm.countP_eq]
      rw [List.countP_append]
      have hF0 : F.countP (fun g => decide (g.length ≠ 4)) = 0 :=
        List.countP_eq_zero.mpr (fun c hc => by simp [hF4 c hc])
      have hL1 : ([L] : List (List Nat)).countP
          (fun g => decide (g.length ≠ 4)) ≤ 1 :=
        le_trans (List.countP_le_length _) (by simp)
      omega

/-- Witness for `C4_amended` at a concrete five-worker metagraph with
distinct addresses. -/
def mgFive : List MinerInfo :=
  [{ uid := 1, stake := 0, ip := "1.0.0.1", jobId := 0 },
   { uid := 2, stake := 0, ip := "1.0.0.2", jobId := 0 },
   { uid := 3, stake := 0, ip := "1.0.0.3", jobId := 0 },
   { uid := 4, stake := 0, ip := "1.0.0.4", jobId := 0 },
   { uid := 5, stake := 0, ip := "1.0.0.5", jobId := 0 }]

theorem C4_amended_witness :
    (mgFive.map (·.uid)).Nodup ∧
    cluster_miners id true mgFive (fun _ => 0) = some [[1, 2, 3, 4], [5]] ∧
    ((∀ u ∈ (dedupByIp (mgFive.filter isEligibleMiner)).map (·.uid),
        ([[1, 2, 3, 4], [5]] : List (List Nat)).countP
          (fun g => decide (u ∈ g)) = 1) ∧
      ([[1, 2, 3, 4], [5]] : List (List Nat)).countP
        (fun g => decide (g.length ≠ 4)) ≤ 1) :=
  ⟨by decide, by decide,
   C4_amended id mgFive (fun _ => 0) [[1, 2, 3, 4], [5]]
     (fun l => List.Perm.refl l) (by decide) (by decide)⟩

/-! ### Claim C6 -/

def mgThree : List MinerInfo :=
  [{ uid := 1, stake := 0, ip := "1.0.0.1", jobId := 0 },
   { uid := 2, stake := 0, ip := "1.0.0.2", jobId := 0 },
   { uid := 3, stake := 0, ip := "1.0.0.3", jobId := 0 }]

def mgOnlyValidator : List MinerInfo :=
  [{ uid := 9, stake := 6000, ip := "1.2.3.4", jobId := 0 }]

/-- C6: with zero eligible workers `cluster_miners` does return the empty
group list (both for an empty metagraph and for one with no eligible
worker), but with 1-3 eligible workers it does **not** return a single
undersized group: `group_count = 3 // 4 = 0`, so the code calls
`KMeans(n_clusters=0)` (validator.py lines 370-372), which raises
`ValueError` — modelled as the `none` result — instead of producing the
group `[[1, 2, 3]]`. -/
theorem C6_small_inputs :
    cluster_miners id true [] (fun _ => 0) = some [] ∧
    cluster_miners id true mgOnlyValidator (fun _ => 0) = some [] ∧
    (mgThree.filter isEligibleMiner).length = 3 ∧
    cluster_miners id true mgThree (fun _ => 0) = none := by decide

/-! ### Claim C9 -/

/-- C9: when the deduplicated eligible-worker count `m` is a positive
multiple of 4, the output consists of `m / 4` groups of size 4 **plus one
empty group**: the `leftovers` list is appended unconditionally at
validator.py line 407, even when it is empty, so callers receive a group
with zero worker uids.  Every deduplicated worker appears, with no
duplicates, in the size-4 groups. -/
theorem C9_multiple_of_four (shuffle : List (List Nat) → List (List Nat))
    (mg : List MinerInfo) (labels : Nat → Nat) (gs : List (List Nat))
    (hs : ∀ l, (shuffle l).Perm l)
    (h : cluster_miners shuffle true mg labels = some gs)
    (hm : 4 ∣ (dedupByIp (mg.filter isEligibleMiner)).length)
    (hpos : 0 < (dedupByIp (mg.filter isEligibleMiner)).length) :
    gs.length = (dedupByIp (mg.filter isEligibleMiner)).length / 4 + 1 ∧
    gs.countP (fun g => decide (g.length = 4)) =
      (dedupByIp (mg.filter isEligibleMiner)).length / 4 ∧
    [] ∈ gs ∧
    gs.countP (fun g => decide (g.length = 0)) = 1 ∧
    gs.flatten.Perm ((dedupByIp (mg.filter isEligibleMiner)).map (·.uid)) := by
  have hne : (mg.filter isEligibleMiner).isEmpty = false := by
    rcases hf : mg.filter isEligibleMiner with _ | ⟨a, t⟩
    · exfalso
      rw [hf] at hpos
      simp [dedupByIp] at hpos
    · rfl
  rcases cluster_structure shuffle hs mg labels gs hne h with
    ⟨F, L, hperm, hF4, hFlen, hLlen, hflatperm⟩
  have hL0 : L = [] := by
    refine List.length_eq_zero.mp ?_
    rw [hLlen]
    omega
  refine ⟨?_, ?_, ?_, ?_, ?_⟩
  · rw [hperm.length_eq]
    simp [hFlen]
  · rw [hperm.countP_eq, List.countP_append,
      List.countP_eq_length.mpr (fun c hc => by simp [hF4 c hc])]
    rw [hL0]
    simp [hFlen]
  · rw [hperm.mem_iff, hL0]
    simp
  · rw [hperm.countP_eq, List.countP_append,
      List.countP_eq_zero.mpr (fun c hc => by simp [hF4 c hc]), hL0]
    simp
  · exact (permFlatten hperm).trans hflatperm

def mgFour : List MinerInfo :=
  [{ uid := 1, stake := 0, ip := "1.0.0.1", jobId := 0 },
   { uid := 2, stake := 0, ip := "1.0.0.2", jobId := 0 },
   { uid := 3, stake := 0, ip := "1.0.0.3", jobId := 0 },
   { uid := 4, stake := 0, ip := "1.0.0.4", jobId := 0 }]

theorem C9_multiple_of_four_witness :
    cluster_miners id true mgFour (fun i => i) = some [[1, 2, 3, 4], []] ∧
    4 ∣ (dedupByIp (mgFour.filter isEligibleMiner)).length ∧
    0 < (dedupByIp (mgFour.filter isEligibleMiner)).length ∧
    (([[1, 2, 3, 4], []] : List (List Nat)).length =
        (dedupByIp (mgFour.filter isEligibleMiner)).length / 4 + 1 ∧
      ([[1, 2, 3, 4], []] : List (List Nat)).countP
          (fun g => decide (g.length = 4)) =
        (dedupByIp (mgFour.filter isEligibleMiner)).length / 4 ∧
      ([] : List Nat) ∈ ([[1, 2, 3, 4], []] : List (List Nat)) ∧
      ([[1, 2, 3, 4], []] : List (List Nat)).countP
          (fun g => decide (g.length = 0)) = 1 ∧
      ([[1, 2, 3, 4], []] : List (List Nat)).flatten.Perm
        ((dedupByIp (mgFour.filter isEligibleMiner)).map (·.uid))) :=
  ⟨by decide, by decide, by decide,
   C9_multiple_of_four id mgFour (fun i => i) [[1, 2, 3, 4], []]
     (fun l => List.Perm.refl l) (by decide) (by decide) (by decide)⟩

/-! ### Claim C7 -/

/-- C7: on any metagraph whose eligible workers are exactly 10, with
pairwise-distinct addresses (and globally distinct uids), `cluster_miners`
succeeds for **every** k-means label assignment and every shuffle, and the
output is exactly 2 groups of size 4 and one leftover group of size 2; no
worker is dropped and no worker appears in two groups. -/
theorem C7_ten_workers (shuffle : List (List Nat) → List (List Nat))
    (mg : List MinerInfo) (labels : Nat → Nat)
    (hs : ∀ l, (shuffle l).Perm l)
    (hlen : (mg.filter isEligibleMiner).length = 10)
    (hips : ((mg.filter isEligibleMiner).map (·.ip)).Nodup)
    (hnd : (mg.map (·.uid)).Nodup) :
    ∃ gs, cluster_miners shuffle true mg labels = some gs ∧
      gs.length = 3 ∧
      gs.countP (fun g => decide (g.length = 4)) = 2 ∧
      gs.countP (fun g => decide (g.length = 2)) = 1 ∧
      gs.flatten.Perm ((mg.filter isEligibleMiner).map (·.uid)) ∧
      (∀ u ∈ (mg.filter isEligibleMiner).map (·.uid),
        gs.countP (fun g => decide (u ∈ g)) = 1) := by
  have helig : ∀ m ∈ mg.filter isEligibleMiner, isEligibleMiner m = true :=
    fun m hm => (List.mem_filter.mp hm).2
  have hdedup : dedupByIp (mg.filter isEligibleMiner) =
      mg.filter isEligibleMiner :=
    dedupByIp_id (mg.filter isEligibleMiner) helig hips
  have hne : (mg.filter isEligibleMiner).isEmpty = false := by
    rcases hf : mg.filter isEligibleMiner with _ | ⟨a, t⟩
    · rw [hf] at hlen
      simp at hlen
    · rfl
  have hm : (dedupByIp (mg.filter isEligibleMiner)).length = 10 := by
    rw [hdedup, hlen]
  cases hc : cluster_miners shuffle true mg labels with
  | none =>
    exfalso
    have hgc : ¬ (dedupByIp (mg.filter isEligibleMiner)).length / 4 = 0 := by
      rw [hm]
      omega
    simp [cluster_miners, hne, hgc] at hc
  | some gs =>
    rcases cluster_structure shuffle hs mg labels gs hne hc with
      ⟨F, L, hperm, hF4, hFlen, hLlen, hflatperm⟩
    rw [hm] at hFlen hLlen
    have hnodup :
        ((dedupByIp (mg.filter isEligibleMiner)).map (·.uid)).Nodup :=
      hnd.sublist
        (((dedupByIp_sublist (mg.filter isEligibleMiner)).trans
          (List.filter_sublist mg)).map (·.uid))
    refine ⟨gs, rfl, ?_, ?_, ?_, ?_, ?_⟩
    · rw [hperm.length_eq]
      simp [hFlen]
    · rw [hperm.countP_eq, List.countP_append,
        List.countP_eq_length.mpr (fun c hcm => by simp [hF4 c hcm])]
      have : ([L] : List (List Nat)).countP (fun g => decide (g.length = 4))
          = 0 :=
        List.countP_eq_zero.mpr (fun c hcm => by
          have : c = L := by simpa using hcm
          simp [this, hLlen])
      rw [this, hFlen]
    · rw [hperm.countP_eq, List.countP_append,
        List.countP_eq_zero.mpr (fun c hcm => by simp [hF4 c hcm])]
      simp [hLlen]
    · rw [← hdedup]
      exact (permFlatten hperm).trans hflatperm
    · intro u hu
      rw [← hdedup] at hu
      have hcount : gs.flatten.count u = 1 := by
        rw [((permFlatten hperm).trans hflatperm).count_eq u]
        exact List.count_eq_one_of_mem hnodup hu
      exact countP_mem_of_flatten_count_one gs u hcount

/-- Witness for `C7_ten_workers`: ten concrete workers with distinct
addresses, a non-trivial label assignment, and the identity shuffle. -/
def mgTen : List MinerInfo :=
  [{ uid := 1, stake := 0, ip := "1.0.0.1", jobId := 0 },
   { uid := 2, stake := 0, ip := "1.0.0.2", jobId := 0 },
   { uid := 3, stake := 0, ip := "1.0.0.3", jobId := 0 },
   { uid := 4, stake := 0, ip := "1.0.0.4", jobId := 0 },
   { uid := 5, stake := 0, ip := "1.0.0.5", jobId := 0 },
   { uid := 6, stake := 0, ip := "1.0.0.6", jobId := 0 },
   { uid := 7, stake := 0, ip := "1.0.0.7", jobId := 0 },
   { uid := 8, stake := 0, ip := "1.0.0.8", jobId := 0 },
   { uid := 9, stake := 0, ip := "1.0.0.9", jobId := 0 },
   { uid := 10, stake := 0, ip := "1.0.0.10", jobId := 0 }]

theorem C7_ten_workers_witness :
    (mgTen.filter isEligibleMiner).length = 10 ∧
    ((mgTen.filter isEligibleMiner).map (·.ip)).Nodup ∧
    (mgTen.map (·.uid)).Nodup ∧
    (∃ gs, cluster_miners id true mgTen (fun i => i % 3) = some gs ∧
      gs.length = 3 ∧
      gs.countP (fun g => decide (g.length = 4)) = 2 ∧
      gs.countP (fun g => decide (g.length = 2)) = 1 ∧
      gs.flatten.Perm ((mgTen.filter isEligibleMiner).map (·.uid)) ∧
      (∀ u ∈ (mgTen.filter isEligibleMiner).map (·.uid),
        gs.countP (fun g => decide (u ∈ g)) = 1)) :=
  ⟨by decide, by decide, by decide,
   C7_ten_workers id mgTen (fun i => i % 3) (fun l => List.Perm.refl l)
     (by decide) (by decide) (by decide)⟩

/-! ### Claim C8: benchmark-map recording and the weight aggregator

The benchmark thread's per-term map `self.benchmark_state` is a Python dict
with integer uid keys; modelled as an association list updated in place
(new keys appended), exactly Python's dict semantics.  The value recorded
for a responder is `arrived_at - benchmark_at` (times are abstracted as
integers); a non-responder gets the sentinel `-1` (validator.py lines
193-199).  The per-miner `miner_status[...]['benchmark']` bookkeeping of
lines 200-205 touches separate state never read by `set_weights` and is not
modelled. -/

def setKey : List (Nat × Int) → Nat → Int → List (Nat × Int)
  | [], k, v => [(k, v)]
  | (k', v') :: rest, k, v =>
    if k' = k then (k', v) :: rest else (k', v') :: setKey rest k v

def lookupKey (m : List (Nat × Int)) (k : Nat) : Option Int :=
  (m.find? (fun kv => kv.1 == k)).map (·.2)

/-- The response loop of validator.py lines 193-199: each pair is a uid of
the probed group together with its (optional) `(arrived_at, size)`
response; `None` (timeout / no response) records the sentinel `-1`. -/
def processResponses (pairs : List (Nat × Option (Int × Int)))
    (benchmarkAt : Int) (st : List (Nat × Int)) : List (Nat × Int) :=
  pairs.foldl
    (fun st p =>
      match p.2 with
      | none => setKey st p.1 (-1)
      | some r => setKey st p.1 (r.1 - benchmarkAt))
    st

/-- A Python dict key after a JSON round trip: `json.dumps` writes integer
keys as strings and `json.load` returns string keys. -/
inductive PyKey where
  | int : Int → PyKey
  | str : String → PyKey
deriving DecidableEq

/-- Python `==` between dict keys: an `int` never equals a `str`. -/
def pyKeyEq : PyKey → PyKey → Bool
  | .int a, .int b => a == b
  | .str a, .str b => a == b
  | .int _, .str _ => false
  | .str _, .int _ => false

/-- The upload/download round trip of the benchmark map
(`upload_to_wandb` line 283 `json.dumps` / `download_from_wandb` line 302
`json.load`): integer uid keys come back as strings. -/
def jsonRoundTrip (m : List (Nat × Int)) : List (PyKey × Int) :=
  m.map (fun kv => (PyKey.str (toString kv.1), kv.2))

/-- The membership test `i in commit['benchmark']` at validator.py line 467, with `i` an `int`
from `range(256)` and the downloaded dict's keys compared by Python `==`. -/
def pyMember (i : Nat) (m : List (PyKey × Int)) : Bool :=
  m.any (fun kv => pyKeyEq (PyKey.int i) kv.1)

/-- The access `commit['benchmark'][i]` at line 468 (only evaluated under `pyMember`). -/
def pyGet (i : Nat) (m : List (PyKey × Int)) : Int :=
  ((m.find? (fun kv => pyKeyEq (PyKey.int i) kv.1)).map (·.2)).getD 0

/-- The aggregation loop of `set_weights` (validator.py lines 462-471):
for each worker index `i` in `range(256)`, collect one sample from every
downloaded benchmark map containing `i`; workers with an empty sample list
are skipped, the others are appended to `responses` and `miner_uids`. -/
def buildSamples (benchmarks : List (List (PyKey × Int))) :
    List (List Int) × List Nat :=
  (List.range 256).foldl
    (fun acc i =>
      let response := benchmarks.filterMap
        (fun b => if pyMember i b then some (pyGet i b) else none)
      if 0 < response.length then (acc.1 ++ [response], acc.2 ++ [i])
      else acc)
    ([], [])

theorem lookup_setKey_self :
    ∀ (st : List (Nat × Int)) (k : Nat) (v : Int),
      lookupKey (setKey st k v) k = some v := by
  intro st
  induction st with
  | nil => intro k v; simp [setKey, lookupKey]
  | cons p rest ih =>
    intro k v
    obtain ⟨k', v'⟩ := p
    by_cases hk : k' = k
    · simp [setKey, hk, lookupKey]
    · simp only [setKey, if_neg hk]
      unfold lookupKey
      rw [List.find?_cons_of_neg _ (by simpa using hk)]
      exact ih k v

theorem lookup_setKey_ne :
    ∀ (st : List (Nat × Int)) (k k' : Nat) (v : Int), k' ≠ k →
      lookupKey (setKey st k v) k' = lookupKey st k' := by
  intro st
  induction st with
  | nil =>
    intro k k' v hne
    unfold setKey lookupKey
    rw [List.find?_cons_of_neg _ (by simpa using Ne.symm hne)]
  | cons p rest ih =>
    intro k k' v hne
    obtain ⟨k₀, v₀⟩ := p
    by_cases hk : k₀ = k
    · have hstep : setKey ((k₀, v₀) :: rest) k v = (k₀, v) :: rest := by
        simp [setKey, hk]
      rw [hstep]
      unfold lookupKey
      have hk' : ¬ k₀ = k' := fun hc => hne (by rw [← hc, hk])
      rw [List.find?_cons_of_neg _ (by simpa using hk'),
        List.find?_cons_of_neg _ (by simpa using hk')]
    · have hstep : setKey ((k₀, v₀) :: rest) k v =
          (k₀, v₀) :: setKey rest k v := by
        simp [setKey, hk]
      rw [hstep]
      unfold lookupKey
      by_cases hk' : k₀ = k'
      · rw [List.find?_cons_of_pos _ (by simp [hk']),
          List.find?_cons_of_pos _ (by simp [hk'])]
      · rw [List.find?_cons_of_neg _ (by simpa using hk'),
          List.find?_cons_of_neg _ (by simpa using hk')]
        exact ih k k' v hne

theorem processResponses_cons (p : Nat × Option (Int × Int))
    (rest : List (Nat × Option (Int × Int))) (b : Int)
    (st : List (Nat × Int)) :
    processResponses (p :: rest) b st =
      processResponses rest b
        (match p.2 with
          | none => setKey st p.1 (-1)
          | some r => setKey st p.1 (r.1 - b)) := by
  rfl

theorem processResponses_not_mem :
    ∀ (pairs : List (Nat × Option (Int × Int))) (b : Int)
      (st : List (Nat × Int)) (X : Nat), X ∉ pairs.map (·.1) →
      lookupKey (processResponses pairs b st) X = lookupKey st X := by
  intro pairs
  induction pairs with
  | nil => intro b st X _; rfl
  | cons p rest ih =>
    intro b st X hX
    have hX1 : X ≠ p.1 := by
      intro hc
      exact hX (by simp [hc])
    have hX2 : X ∉ rest.map (·.1) := fun hc => hX (by simp [hc])
    rw [processResponses_cons]
    cases hp : p.2 with
    | none =>
      exact (ih b (setKey st p.1 (-1)) X hX2).trans
        (lookup_setKey_ne st p.1 X (-1) hX1)
    | some r =>
      exact (ih b (setKey st p.1 (r.1 - b)) X hX2).trans
        (lookup_setKey_ne st p.1 X (r.1 - b) hX1)

theorem processResponses_timeout :
    ∀ (pairs : List (Nat × Option (Int × Int))) (b : Int)
      (st : List (Nat × Int)) (X : Nat),
      (X, (none : Option (Int × Int))) ∈ pairs →
      (pairs.map (·.1)).Nodup →
      lookupKey (processResponses pairs b st) X = some (-1) := by
  intro pairs
  induction pairs with
  | nil => intro b st X hm _; simp at hm
  | cons p rest ih =>
    intro b st X hm hnd
    have hnd2 : (p.1 :: rest.map (·.1)).Nodup := by simpa using hnd
    have hnd' : (rest.map (·.1)).Nodup := (List.nodup_cons.mp hnd2).2
    rcases List.mem_cons.mp hm with hm | hm
    · obtain rfl : p = (X, none) := hm.symm
      have hXrest : X ∉ rest.map (·.1) := (List.nodup_cons.mp hnd2).1
      rw [processResponses_cons]
      rw [processResponses_not_mem rest b _ X hXrest]
      exact lookup_setKey_self st X (-1)
    · rw [processResponses_cons]
      cases hp : p.2 with
      | none => exact ih b (setKey st p.1 (-1)) X hm hnd'
      | some r => exact ih b (setKey st p.1 (r.1 - b)) X hm hnd'

theorem pyMember_roundTrip_false (i : Nat) :
    ∀ m : List (Nat × Int), pyMember i (jsonRoundTrip m) = false := by
  intro m
  induction m with
  | nil => rfl
  | cons p rest ih =>
    simp only [jsonRoundTrip, List.map_cons, pyMember, List.any_cons]
    simpa [pyKeyEq, pyMember, jsonRoundTrip] using ih

theorem buildSamples_roundTrip_empty (ms : List (List (Nat × Int))) :
    buildSamples (ms.map jsonRoundTrip) = ([], []) := by
  have hresp : ∀ i : Nat,
      (ms.map jsonRoundTrip).filterMap
        (fun b => if pyMember i b then some (pyGet i b) else none) = [] := by
    intro i
    induction ms with
    | nil => rfl
    | cons m rest ih =>
      simp only [List.map_cons, List.filterMap_cons,
        pyMember_roundTrip_false i m]
      simpa using ih
  unfold buildSamples
  generalize List.range 256 = l
  induction l with
  | nil => rfl
  | cons i rest ih =>
    simp only [List.foldl_cons, hresp i]
    simpa using ih

/-- C8: when the probe to worker `X` gets no response (`responses[i] is
None`), the term's benchmark map records the sentinel `-1` for `X`
(validator.py lines 194-196), and `X` does not appear in the `miner_uids`
sample list that `set_weights` builds (lines 462-471).  In the code as
written the exclusion is unconditional: the benchmark map reaches
`set_weights` through a JSON round trip that turns its integer uid keys
into strings, so the membership test `i in commit['benchmark']` compares an
`int` against `str` keys and never succeeds — every worker, measured or
not, ends up excluded, and in particular the timed-out worker `X` is never
scored. -/
theorem C8_timeout_sentinel_excluded
    (pairs : List (Nat × Option (Int × Int))) (benchmarkAt : Int)
    (st : List (Nat × Int)) (X : Nat)
    (hmem : (X, (none : Option (Int × Int))) ∈ pairs)
    (hnd : (pairs.map (·.1)).Nodup) :
    lookupKey (processResponses pairs benchmarkAt st) X = some (-1) ∧
    ∀ ms : List (List (Nat × Int)),
      X ∉ (buildSamples (ms.map jsonRoundTrip)).2 := by
  refine ⟨processResponses_timeout pairs benchmarkAt st X hmem hnd, ?_⟩
  intro ms
  rw [buildSamples_roundTrip_empty ms]
  simp

/-- Witness for `C8_timeout_sentinel_excluded`: worker 3 times out while
worker 4 answers; the benchmark map records `-1` for worker 3 and the
aggregator's uid list (built from the uploaded maps) does not contain 3. -/
theorem C8_timeout_sentinel_excluded_witness :
    ((3 : Nat), (none : Option (Int × Int))) ∈
      [((3 : Nat), (none : Option (Int × Int))), (4, some (10, 5))] ∧
    lookupKey
      (processResponses [((3 : Nat), (none : Option (Int × Int))),
        (4, some (10, 5))] 2 []) 3 = some (-1) ∧
    ∀ ms : List (List (Nat × Int)),
      (3 : Nat) ∉ (buildSamples (ms.map jsonRoundTrip)).2 :=
  ⟨by decide,
   (C8_timeout_sentinel_excluded
     [((3 : Nat), (none : Option (Int × Int))), (4, some (10, 5))] 2 [] 3
     (by decide) (by decide)).1,
   (C8_timeout_sentinel_excluded
     [((3 : Nat), (none : Option (Int × Int))), (4, some (10, 5))] 2 [] 3
     (by decide) (by decide)).2⟩

/-! ### Claim C10: `Miner.blacklist` (miner.py lines 57-79) -/

/-- Python's `list.index` (miner.py line 61): the index of the first
occurrence, or an error (`ValueError`) when the element is absent. -/
def listIndex : List String → String → Option Nat
  | [], _ => none
  | h :: t, x => if h == x then some 0 else (listIndex t x).map (· + 1)

/-- Embedding of `Miner.blacklist` (miner.py lines 57-79).  The first line
`uid = self.metagraph.hotkeys.index(synapse.dendrite.hotkey)` raises
`ValueError` for a hotkey that is not registered, modelled as the
`Except.error` result; only afterwards does the code test
`hotkey not in metagraph.hotkeys`. -/
def blacklist (hotkeys : List String) (stake : Nat → Int)
    (allowNonRegistered : Bool) (callerHotkey : String) :
    Except String (Bool × String) :=
  match listIndex hotkeys callerHotkey with
  | none => Except.error "ValueError"
  | some uid =>
    if !allowNonRegistered && !(hotkeys.contains callerHotkey) then
      Except.ok (true, "Unrecognized hotkey")
    else if stake uid < VALIDATOR_MIN_STAKE then
      Except.ok (true, "Low-stake hotkey")
    else Except.ok (false, "Hotkey recognized!")

theorem listIndex_mem :
    ∀ (l : List String) (x : String) (i : Nat),
      listIndex l x = some i → x ∈ l := by
  intro l
  induction l with
  | nil => intro x i h; simp [listIndex] at h
  | cons h t ih =>
    intro x i hx
    simp only [listIndex] at hx
    by_cases heq : (h == x) = true
    · exact List.mem_cons.mpr (Or.inl (Eq.symm (by simpa using heq)))
    · rw [if_neg heq] at hx
      rcases Option.map_eq_some'.mp hx with ⟨j, hj, _⟩
      exact List.mem_cons_of_mem h (ih x j hj)

theorem listIndex_none :
    ∀ (l : List String) (x : String), x ∉ l → listIndex l x = none := by
  intro l
  induction l with
  | nil => intro x _; rfl
  | cons h t ih =>
    intro x hx
    have hne : (h == x) = false := by
      simp only [beq_eq_false_iff_ne]
      exact fun hc => hx (hc ▸ List.mem_cons_self h t)
    simp only [listIndex, hne, Bool.false_eq_true, if_false]
    rw [ih x (fun hc => hx (List.mem_cons_of_mem h hc))]
    rfl

/-- C10: `Miner.blacklist` never returns the
`(True, "Unrecognized hotkey")` decision: for a hotkey that is not in
`metagraph.hotkeys`, the uid lookup on the function's first line raises
(so the function errors out before the unregistered-hotkey check); for a
registered hotkey the `hotkey not in metagraph.hotkeys` test is false, so
the outcome is decided by the registered uid's stake. -/
theorem C10_blacklist_no_unrecognized (hotkeys : List String)
    (stake : Nat → Int) (allowNonRegistered : Bool) (hk : String) :
    blacklist hotkeys stake allowNonRegistered hk ≠
      Except.ok (true, "Unrecognized hotkey") ∧
    (hk ∉ hotkeys →
      blacklist hotkeys stake allowNonRegistered hk =
        Except.error "ValueError") := by
  constructor
  · cases hidx : listIndex hotkeys hk with
    | none => simp [blacklist, hidx]
    | some uid =>
      have hm : hk ∈ hotkeys := listIndex_mem hotkeys hk uid hidx
      have hcont : hotkeys.contains hk = true := by
        simpa using hm
      simp only [blacklist, hidx, hcont, Bool.not_true, Bool.and_false]
      by_cases hst : stake uid < VALIDATOR_MIN_STAKE
      · simp only [if_pos hst, Bool.false_eq_true, if_false]
        intro hc
        have := (Except.ok.inj hc)
        simp at this
      · simp only [if_neg hst, Bool.false_eq_true, if_false]
        intro hc
        have := (Except.ok.inj hc)
        simp at this
  · intro hnm
    simp [blacklist, listIndex_none hotkeys hk hnm]

/-- Witness for `C10_blacklist_no_unrecognized`: the hotkey "hk-b" is not
registered; the blacklist call raises (`ValueError`) instead of returning
`(True, "Unrecognized hotkey")`. -/
theorem C10_blacklist_no_unrecognized_witness :
    "hk-b" ∉ ["hk-a"] ∧
    blacklist ["hk-a"] (fun _ => 6000) false "hk-b" ≠
      Except.ok (true, "Unrecognized hotkey") ∧
    blacklist ["hk-a"] (fun _ => 6000) false "hk-b" =
      Except.error "ValueError" :=
  ⟨by decide,
   (C10_blacklist_no_unrecognized ["hk-a"] (fun _ => 6000) false "hk-b").1,
   (C10_blacklist_no_unrecognized ["hk-a"] (fun _ => 6000) false "hk-b").2
     (by decide)⟩
